import Mathlib

/-!
# Verification of the fornjot B-rep kernel's core algorithms

Shallow embedding of the cycle-join operation (`fj-core/src/operations/join/cycle.rs`),
the curve approximation engine (`fj-kernel/src/algorithms/approx/curve.rs`) and the
edge sweep (`fj-kernel/src/algorithms/sweep/edge.rs`).

Conventions of the embedding:
* Object-store handles are modelled as natural-number identities.  Per the spec's
  glossary, equality of handles is identity, and a store insertion always produces
  a fresh handle ("new object ⇒ new handle").  A `Nat` counter threads the next
  fresh identity through every operation, standing in for the store/services value.
* Rust `usize` arithmetic is modelled as arithmetic modulo `2 ^ 64` (release
  semantics for the one subtraction `range.end() - range.start()`).
* Rust panics (`assert_eq!`, `expect`, `todo!`, `%` by zero) are modelled with
  `Except`: a returned `.error` is a panic, a returned `.ok` is a normal return.
* Scalars are modelled as `ℚ`.  The transcendental evaluations (sine/cosine of a
  circle parametrisation) are abstracted into an explicit `Trig` argument, since
  no claim depends on their numeric values.
-/

namespace Fj

/-- A rational 2-dimensional point/vector (surface coordinates `(u, v)`). -/
structure Vec2 where
  u : ℚ
  v : ℚ
deriving DecidableEq

/-- A rational 3-dimensional point/vector (global coordinates). -/
structure Vec3 where
  x : ℚ
  y : ℚ
  z : ℚ
deriving DecidableEq

/-- A path in 2-dimensional surface coordinates (`SurfacePath` in the source):
either a line (origin, direction) or a circle (center and the two axes spanning
its plane). -/
inductive SurfacePath where
  | line (origin dir : Vec2)
  | circle (center aAxis bAxis : Vec2)
deriving DecidableEq

/-- A path in global 3-dimensional coordinates (`GlobalPath` in the source). -/
inductive GlobalPath where
  | line (origin dir : Vec3)
  | circle (center aAxis bAxis : Vec3)
deriving DecidableEq

/-! ## The join operation, `fj-core/src/operations/join/cycle.rs`

The `Cycle` and `Edge` object types and the cycle accessors (`len`, `nth_edge`,
`half_edge_after`, `replace_half_edge`, `add_half_edges`) live in files that are
not part of the sources; they are modelled from the spec below.  The operations
`add_joined_edges` and `join_to` are translated line by line from the source. -/

/-- A half-edge handle together with the edge value it resolves to
(`Handle<Edge>` in the source).  `id` is the handle identity: two handles are
the same handle exactly when their `id`s coincide.  The edge value carries the
referenced curve handle, its start-vertex handle, the local path and the
1-dimensional parameter-space boundary. -/
structure HEdge where
  id : Nat
  curve : Nat
  startVertex : Nat
  path : SurfacePath
  boundary : ℚ × ℚ
deriving DecidableEq

/-- Modelled from the spec: a `Cycle` is "an ordered, closed loop of half-edges",
kept as an ordered sequence of edge handles with modulo-arithmetic accessors. -/
abbrev Cycle := List HEdge

/-- `Cycle::nth_edge`: the edge at the given index, if the index is in bounds.
Modelled from the spec ("explicit modulo-arithmetic accessors"); the source's
`expect` calls on its result show it returns an `Option`. -/
def nthEdge (c : Cycle) (i : Nat) : Option HEdge :=
  c.get? i

/-- First position in the cycle holding the given handle identity.  Modelled from
the spec: handles are compared by identity. -/
def idIndex : Cycle → Nat → Option Nat
  | [], _ => none
  | e :: es, i => if e.id = i then some 0 else (idIndex es i).map (· + 1)

/-- `Cycle::half_edge_after`: the edge following the given one, wrapping around at
the end of the sequence; `none` when the cycle does not contain the edge.
Modelled from the spec ("sequence is cyclic, index arithmetic wraps modulo
length"). -/
def halfEdgeAfter (c : Cycle) (e : HEdge) : Option HEdge :=
  (idIndex c e.id).bind fun i => nthEdge c ((i + 1) % c.length)

/-- `UpdateCycle::replace_half_edge`: replace every occurrence of the handle
`orig` by `repl`.  Modelled from the spec's "replace-field" update operations. -/
def replaceHalfEdge (c : Cycle) (orig repl : HEdge) : Cycle :=
  c.map fun e => if e.id = orig.id then repl else e

/-- Store insertion of a freshly built edge: the new object receives the next
fresh handle identity.  Modelled from the spec: "every entity is created once
... and inserted into the store, which returns a handle"; a new object always
obtains a new handle. -/
def insertEdge (e : HEdge) (services : Nat) : HEdge × Nat :=
  ({ e with id := services }, services + 1)

/-- The width of Rust's `usize` on the 64-bit targets the program runs on. -/
def USIZE : Nat := 2 ^ 64

/-- Rust `usize` subtraction `a - b` (release semantics: wrapping mod `2 ^ 64`). -/
def usizeSub (a b : Nat) : Nat :=
  (a % USIZE + (USIZE - b % USIZE)) % USIZE

/-- The list of indices an inclusive Rust range `s..=e` iterates over. -/
def rangeList (s e : Nat) : List Nat :=
  if s ≤ e then (List.range (e - s + 1)).map (s + ·) else []

/-- The panics `join_to` can raise. -/
inductive JoinPanic where
  | rangesDifferentLengths  -- the `assert_eq!` at the top of `join_to`
  | remainderByZero         -- `index % self.len()` with an empty cycle
  | indexOutOfBounds        -- `.expect("Index must be valid, due to use of `%` above")`
  | edgeNotInCycle          -- `.expect("Cycle must contain edge; just obtained edge from it")`
deriving DecidableEq

/-- One iteration of the `for (index, index_other) in range.zip(range_other)`
loop body of `join_to` (source lines 109-141).  `selfC` is the unmodified
receiver cycle the indices are taken from, `cycle` the accumulated result.
Note that, as in the source, *both* indices are reduced modulo `selfC.length`;
an `Option` that the source hits with `.expect(..)` panics through the
corresponding `.error`.  The two `insert` calls at the end hand the freshly
built edge values the next fresh handle identities `services` and
`services + 1`. -/
def joinIter (selfC other cycle : Cycle) (services : Nat) (p : Nat × Nat) :
    Except JoinPanic (Cycle × Nat) :=
  if selfC.length = 0 then .error .remainderByZero
  else
    match nthEdge selfC (p.1 % selfC.length) with
    | none => .error .indexOutOfBounds
    | some halfEdge =>
      match nthEdge other (p.2 % selfC.length) with
      | none => .error .indexOutOfBounds
      | some halfEdgeOther =>
        match halfEdgeAfter other halfEdgeOther with
        | none => .error .edgeNotInCycle
        | some otherNext =>
          match halfEdgeAfter cycle halfEdge with
          | none => .error .edgeNotInCycle
          | some nextEdge =>
            .ok (replaceHalfEdge
                  (replaceHalfEdge cycle halfEdge { halfEdge with curve := halfEdgeOther.curve, startVertex := otherNext.startVertex, id := services })
                  nextEdge
                  { nextEdge with startVertex := halfEdgeOther.startVertex, id := services + 1 },
                 services + 2)

/-- The `join_to` loop over the zipped index pairs. -/
def joinLoop (selfC other : Cycle) (pairs : List (Nat × Nat)) (cycle : Cycle)
    (services : Nat) : Except JoinPanic (Cycle × Nat) :=
  match pairs with
  | [] => .ok (cycle, services)
  | p :: rest =>
    match joinIter selfC other cycle services p with
    | .error e => .error e
    | .ok (c1, s1) => joinLoop selfC other rest c1 s1

/-- `JoinCycle::join_to` (source lines 94–144): assert the two inclusive ranges
have the same `end - start`, then stitch the cycles together pair by pair. -/
def join_to (selfC other : Cycle) (range rangeOther : Nat × Nat)
    (services : Nat) : Except JoinPanic (Cycle × Nat) :=
  if usizeSub range.2 range.1 ≠ usizeSub rangeOther.2 rangeOther.1 then
    .error .rangesDifferentLengths
  else
    joinLoop selfC other
      ((rangeList range.1 range.2).zip (rangeList rangeOther.1 rangeOther.2))
      selfC services

/-! ### `add_joined_edges` (source lines 77–92) -/

/-- One input item of `add_joined_edges`: a half-edge handle, a local path and a
parameter boundary. -/
abbrev JoinInput := HEdge × SurfacePath × (ℚ × ℚ)

/-- `circular_tuple_windows` over the input sequence: the consecutive pairs
`(xs[j], xs[(j+1) % n])` for `j < n`. -/
def circularPairs (xs : List JoinInput) : List (JoinInput × JoinInput) :=
  xs.zip (xs.rotate 1)

/-- The mapped loop body of `add_joined_edges`: for every window
`((prev, _, _), (half_edge, curve, boundary))` build
`Edge::unjoined(curve, boundary, services)` (which allocates a fresh curve
handle and a fresh start-vertex handle, modelled from the spec since the edge
builder is not among the sources), replace its curve by `half_edge`'s curve and
its start vertex by `prev`'s start vertex, and insert it. -/
def addJoinedLoop : List (JoinInput × JoinInput) → Nat → List HEdge × Nat
  | [], s => ([], s)
  | (prev, cur) :: rest, s =>
    let built : HEdge :=
      { id := s + 2, curve := cur.1.curve, startVertex := prev.1.startVertex,
        path := cur.2.1, boundary := cur.2.2 }
    let (es, s3) := addJoinedLoop rest (s + 3)
    (built :: es, s3)

/-- `JoinCycle::add_joined_edges`: append the newly built joined edges to the
cycle (`Cycle::add_half_edges` is modelled from the spec as appending to the
ordered edge sequence). -/
def add_joined_edges (selfC : Cycle) (edges : List JoinInput) (services : Nat) :
    Cycle × Nat :=
  (selfC ++ (addJoinedLoop (circularPairs edges) services).1,
   (addJoinedLoop (circularPairs edges) services).2)

/-! ### Well-formedness side conditions

`idsNodup c` says no half-edge handle occurs twice in the cycle (a loop visits
each of its edges once); `freshFor s c` says the service's fresh-handle counter
is ahead of every handle in `c`, which the store guarantees for every cycle it
has handed out. -/

/-- The edge handles of the cycle are pairwise distinct. -/
def idsNodup (c : Cycle) : Prop :=
  (c.map HEdge.id).Nodup

instance (c : Cycle) : Decidable (idsNodup c) :=
  inferInstanceAs (Decidable (c.map HEdge.id).Nodup)

/-- Every handle in the cycle was allocated before counter value `s`. -/
def freshFor (s : Nat) (c : Cycle) : Prop :=
  ∀ e ∈ c, e.id < s

instance (s : Nat) (c : Cycle) : Decidable (freshFor s c) :=
  inferInstanceAs (Decidable (∀ e ∈ c, e.id < s))

/-! ### Lemmas about the spec-modelled cycle accessors -/

theorem nthEdge_mem {c : Cycle} {i : Nat} {e : HEdge} (h : nthEdge c i = some e) :
    e ∈ c :=
  List.get?_mem h

theorem nthEdge_of_lt (c : Cycle) {i : Nat} (h : i < c.length) :
    nthEdge c i = some (c.get ⟨i, h⟩) :=
  List.get?_eq_get h

theorem idIndex_eq_none {c : Cycle} {i : Nat} :
    idIndex c i = none ↔ ∀ e ∈ c, e.id ≠ i := by
  induction c with
  | nil => simp [idIndex]
  | cons x xs ih =>
    by_cases hx : x.id = i
    · simp [idIndex, hx]
    · simp [idIndex, hx, ih]

theorem idIndex_lt {c : Cycle} {i j : Nat} (h : idIndex c i = some j) :
    j < c.length := by
  induction c generalizing j with
  | nil => simp [idIndex] at h
  | cons x xs ih =>
    simp only [idIndex] at h
    by_cases hx : x.id = i
    · rw [if_pos hx] at h
      obtain rfl : j = 0 := (Option.some.inj h).symm
      simp
    · rw [if_neg hx] at h
      rcases Option.map_eq_some'.mp h with ⟨j0, hj0, rfl⟩
      have := ih hj0
      simp only [List.length_cons]
      omega

theorem idIndex_isSome_of_mem {c : Cycle} {e : HEdge} (h : e ∈ c) :
    (idIndex c e.id).isSome := by
  induction c with
  | nil => simp at h
  | cons x xs ih =>
    by_cases hx : x.id = e.id
    · simp [idIndex, hx]
    · rcases List.mem_cons.mp h with rfl | hmem
      · exact absurd rfl hx
      · have h2 := ih hmem
        rcases Option.isSome_iff_exists.mp h2 with ⟨j, hj⟩
        simp [idIndex, hx, hj]

theorem idIndex_of_nodup {c : Cycle} {k : Nat} {e : HEdge} (hn : idsNodup c)
    (h : nthEdge c k = some e) : idIndex c e.id = some k := by
  induction c generalizing k with
  | nil => simp [nthEdge] at h
  | cons x xs ih =>
    cases k with
    | zero =>
      simp [nthEdge] at h
      simp [idIndex, h]
    | succ k0 =>
      simp only [nthEdge, List.get?_cons_succ] at h
      have hmem : e ∈ xs := nthEdge_mem h
      have hx : x.id ≠ e.id := by
        intro hcontra
        have : e.id ∈ xs.map HEdge.id := List.mem_map_of_mem HEdge.id hmem
        rw [← hcontra] at this
        exact (List.nodup_cons.mp hn).1 this
      have hn2 : idsNodup xs := (List.nodup_cons.mp hn).2
      simp [idIndex, hx, ih hn2 h]

theorem halfEdgeAfter_isSome_of_mem {c : Cycle} {e : HEdge} (h : e ∈ c) :
    ∃ x, halfEdgeAfter c e = some x := by
  rcases Option.isSome_iff_exists.mp (idIndex_isSome_of_mem h) with ⟨j, hj⟩
  have hlen : c.length ≠ 0 := by
    intro h0
    rw [List.length_eq_zero.mp h0] at h
    simp at h
  have hlt : (j + 1) % c.length < c.length := Nat.mod_lt _ (Nat.pos_of_ne_zero hlen)
  refine ⟨c.get ⟨(j + 1) % c.length, hlt⟩, ?_⟩
  simp [halfEdgeAfter, hj, nthEdge_of_lt c hlt]

theorem halfEdgeAfter_eq_none {c : Cycle} {e : HEdge}
    (h : ∀ x ∈ c, x.id ≠ e.id) : halfEdgeAfter c e = none := by
  simp [halfEdgeAfter, idIndex_eq_none.mpr h]

theorem replaceHalfEdge_length (c : Cycle) (o r : HEdge) :
    (replaceHalfEdge c o r).length = c.length :=
  List.length_map _ _

theorem replaceHalfEdge_get? (c : Cycle) (o r : HEdge) (k : Nat) :
    (replaceHalfEdge c o r).get? k
      = (c.get? k).map (fun e => if e.id = o.id then r else e) :=
  List.get?_map _ _ _

theorem mod_succ_mod (i n : Nat) : (i % n + 1) % n = (i + 1) % n := by
  conv_rhs => rw [Nat.add_mod]
  conv_lhs => rw [Nat.add_mod]
  rw [Nat.mod_mod_of_dvd i (dvd_refl n)]

theorem succ_mod_ne_self {i n : Nat} (hn : 2 ≤ n) (hi : i < n) :
    (i + 1) % n ≠ i := by
  rcases Nat.lt_or_ge (i + 1) n with hlt | hge
  · rw [Nat.mod_eq_of_lt hlt]
    omega
  · have h1 : i + 1 = n := by omega
    rw [h1, Nat.mod_self]
    omega

/-! ### Characterisation of one loop iteration -/

/-- Anatomy of a successful pass through the `join_to` loop body. -/
theorem joinIter_ok {selfC other cycle : Cycle} {s : Nat} {p : Nat × Nat}
    {r : Cycle × Nat} (h : joinIter selfC other cycle s p = .ok r) :
    ∃ hE hEo oNext nE,
      selfC.length ≠ 0 ∧
      nthEdge selfC (p.1 % selfC.length) = some hE ∧
      nthEdge other (p.2 % selfC.length) = some hEo ∧
      halfEdgeAfter other hEo = some oNext ∧
      halfEdgeAfter cycle hE = some nE ∧
      r = (replaceHalfEdge
            (replaceHalfEdge cycle hE { hE with curve := hEo.curve, startVertex := oNext.startVertex, id := s })
            nE { nE with startVertex := hEo.startVertex, id := s + 1 },
           s + 2) := by
  unfold joinIter at h
  split at h
  · exact absurd h (by simp)
  · rename_i hlen
    split at h
    · exact absurd h (by simp)
    · rename_i hE hEok
      split at h
      · exact absurd h (by simp)
      · rename_i hEo hEook
        split at h
        · exact absurd h (by simp)
        · rename_i oNext oNextok
          split at h
          · exact absurd h (by simp)
          · rename_i nE nEok
            exact ⟨hE, hEo, oNext, nE, hlen, hEok, hEook, oNextok, nEok,
              (Except.ok.inj h).symm⟩

/-- The loop body never raises the length-mismatch fault: that fault is raised
only by the `assert_eq!` before the loop. -/
theorem joinIter_error_ne_mismatch {selfC other cycle : Cycle} {s : Nat}
    {p : Nat × Nat} {e : JoinPanic}
    (h : joinIter selfC other cycle s p = .error e) :
    e ≠ .rangesDifferentLengths := by
  unfold joinIter at h
  split at h
  · obtain rfl : JoinPanic.remainderByZero = e := Except.error.inj h
    simp
  · split at h
    · obtain rfl : JoinPanic.indexOutOfBounds = e := Except.error.inj h
      simp
    · split at h
      · obtain rfl : JoinPanic.indexOutOfBounds = e := Except.error.inj h
        simp
      · split at h
        · obtain rfl : JoinPanic.edgeNotInCycle = e := Except.error.inj h
          simp
        · split at h
          · obtain rfl : JoinPanic.edgeNotInCycle = e := Except.error.inj h
            simp
          · exact absurd h (by simp)

theorem joinLoop_error_ne_mismatch {selfC other : Cycle}
    {pairs : List (Nat × Nat)} {cycle : Cycle} {s : Nat} {e : JoinPanic}
    (h : joinLoop selfC other pairs cycle s = .error e) :
    e ≠ .rangesDifferentLengths := by
  induction pairs generalizing cycle s with
  | nil => simp [joinLoop] at h
  | cons p rest ih =>
    unfold joinLoop at h
    split at h
    · rename_i e1 he1
      obtain rfl : e1 = e := Except.error.inj h
      exact joinIter_error_ne_mismatch he1
    · rename_i c1 s1 _
      exact ih h

/-- Distinct positions of a duplicate-free cycle hold edges with distinct
handle identities. -/
theorem id_ne_of_nodup {c : Cycle} {k1 k2 : Nat} {e1 e2 : HEdge}
    (hnd : idsNodup c) (h1 : nthEdge c k1 = some e1) (h2 : nthEdge c k2 = some e2)
    (hk : k1 ≠ k2) : e1.id ≠ e2.id := by
  intro hcontra
  have i1 := idIndex_of_nodup hnd h1
  have i2 := idIndex_of_nodup hnd h2
  rw [hcontra] at i1
  rw [i1] at i2
  exact hk (Option.some.inj i2)

/-- In `replaceHalfEdge c o r`, as long as the replacement's handle differs from
`i = o.id`, no edge with handle `i` survives: every occurrence was replaced. -/
theorem replaceHalfEdge_clears_id {c : Cycle} {o r : HEdge}
    (hr : r.id ≠ o.id) :
    ∀ x ∈ replaceHalfEdge c o r, x.id ≠ o.id := by
  intro x hx
  rcases List.mem_map.mp hx with ⟨y, _, hxy⟩
  subst hxy
  by_cases hyo : y.id = o.id
  · rw [if_pos hyo]
    exact hr
  · rw [if_neg hyo]
    exact hyo

/-- Peeling one pair off a successful loop run. -/
theorem joinLoop_cons_ok {selfC other : Cycle} {p : Nat × Nat}
    {rest : List (Nat × Nat)} {cycle : Cycle} {s : Nat} {res : Cycle × Nat}
    (h : joinLoop selfC other (p :: rest) cycle s = .ok res) :
    ∃ c1 s1, joinIter selfC other cycle s p = .ok (c1, s1) ∧
      joinLoop selfC other rest c1 s1 = .ok res := by
  cases hres : joinIter selfC other cycle s p with
  | error e =>
    unfold joinLoop at h
    rw [hres] at h
    exact absurd h (by simp)
  | ok pr =>
    obtain ⟨c1, s1⟩ := pr
    unfold joinLoop at h
    rw [hres] at h
    exact ⟨c1, s1, rfl, h⟩

/-- The empty loop returns its accumulator unchanged. -/
theorem joinLoop_nil_ok {selfC other : Cycle} {cycle : Cycle} {s : Nat}
    {res : Cycle × Nat} (h : joinLoop selfC other [] cycle s = .ok res) :
    res = (cycle, s) := by
  unfold joinLoop at h
  exact (Except.ok.inj h).symm

/-- After a successful first iteration starting from the receiver cycle itself,
the edge at the immediately following receiver index has been replaced: its
handle no longer occurs in the accumulated cycle. -/
theorem joinIter_after_start {selfC other : Cycle} {s : Nat} {p : Nat × Nat}
    {c1 : Cycle} {s2 : Nat}
    (hnd : idsNodup selfC) (hfresh : freshFor s selfC)
    (h : joinIter selfC other selfC s p = .ok (c1, s2)) :
    ∃ nE, nthEdge selfC ((p.1 + 1) % selfC.length) = some nE ∧
      halfEdgeAfter c1 nE = none := by
  rcases joinIter_ok h with ⟨hE, hEo, oNext, nE, hlen, h1, h2, h3, h4, heq⟩
  have hidx : idIndex selfC hE.id = some (p.1 % selfC.length) :=
    idIndex_of_nodup hnd h1
  have h4n : nthEdge selfC ((p.1 + 1) % selfC.length) = some nE := by
    have h5 := h4
    rw [halfEdgeAfter, hidx] at h5
    simpa [mod_succ_mod] using h5
  have hne_lt : nE.id < s := hfresh nE (nthEdge_mem h4n)
  simp only [Prod.mk.injEq] at heq
  refine ⟨nE, h4n, halfEdgeAfter_eq_none ?_⟩
  rw [heq.1]
  exact replaceHalfEdge_clears_id (by exact (by omega : s + 1 ≠ nE.id))

/-- Two consecutive index pairs never both get through the loop: the second
iteration fails to find the already-replaced half-edge (or an earlier `expect`
fails first). -/
theorem joinLoop_consecutive_not_ok {selfC other : Cycle} {s : Nat}
    {i io : Nat} {rest : List (Nat × Nat)} {res : Cycle × Nat}
    (hnd : idsNodup selfC) (hfresh : freshFor s selfC) :
    joinLoop selfC other ((i, io) :: (i + 1, io + 1) :: rest) selfC s ≠ .ok res := by
  intro h
  rcases joinLoop_cons_ok h with ⟨c1, s1, hiter, h2⟩
  rcases joinIter_after_start hnd hfresh hiter with ⟨nE, hnE, hnone⟩
  rcases joinLoop_cons_ok h2 with ⟨c2, s3, hiter2, _⟩
  have hlen : selfC.length ≠ 0 := by
    intro h0
    have h00 : selfC = [] := List.length_eq_zero.mp h0
    rw [h00] at hnE
    simp [nthEdge] at hnE
  unfold joinIter at hiter2
  rw [if_neg hlen] at hiter2
  simp only at hiter2
  rw [hnE] at hiter2
  cases heo : nthEdge other ((io + 1) % selfC.length) with
  | none =>
    rw [heo] at hiter2
    exact absurd hiter2 (by simp)
  | some hEo2 =>
    rw [heo] at hiter2
    dsimp only at hiter2
    rcases halfEdgeAfter_isSome_of_mem (nthEdge_mem heo) with ⟨y, hy⟩
    rw [hy] at hiter2
    dsimp only at hiter2
    rw [hnone] at hiter2
    exact absurd hiter2 (by simp)

/-- A nonempty inclusive range decomposes into its first index and the rest. -/
theorem rangeList_eq_cons {s e : Nat} (h : s ≤ e) :
    rangeList s e = s :: rangeList (s + 1) e := by
  rcases Nat.lt_or_ge s e with hlt | hge
  · have h1 : e - s + 1 = (e - (s + 1) + 1) + 1 := by omega
    rw [rangeList, if_pos h, h1, List.range_succ_eq_map]
    rw [rangeList, if_pos (by omega : s + 1 ≤ e)]
    simp only [List.map_cons, List.map_map, Nat.add_zero]
    congr 1
    apply List.map_congr_left
    intro a _
    simp [Function.comp]
    omega
  · have hse : s = e := by omega
    subst hse
    rw [rangeList, if_pos h]
    rw [rangeList, if_neg (by omega)]
    have h1 : s - s + 1 = 1 := by omega
    rw [h1]
    have h2 : List.range 1 = [0] := rfl
    rw [h2]
    simp

/-- A successful `join_to` ran the loop on at most one index pair. -/
theorem join_to_ok_pairs {selfC other : Cycle} {rs re ros roe s : Nat}
    {res : Cycle × Nat}
    (hnd : idsNodup selfC) (hfresh : freshFor s selfC)
    (h : join_to selfC other (rs, re) (ros, roe) s = .ok res) :
    (rangeList rs re).zip (rangeList ros roe) = []
    ∨ (rangeList rs re).zip (rangeList ros roe) = [(rs, ros)] := by
  unfold join_to at h
  split at h
  · exact absurd h (by simp)
  · rename_i hmm
    by_cases h1 : rs ≤ re
    · by_cases h2 : ros ≤ roe
      · rw [rangeList_eq_cons h1, rangeList_eq_cons h2] at h ⊢
        by_cases h3 : rs + 1 ≤ re
        · by_cases h4 : ros + 1 ≤ roe
          · rw [rangeList_eq_cons h3, rangeList_eq_cons h4] at h
            simp only [List.zip_cons_cons] at h
            exact absurd h (joinLoop_consecutive_not_ok hnd hfresh)
          · right
            have : rangeList (ros + 1) roe = [] := by
              rw [rangeList, if_neg (by omega)]
            rw [this]
            simp
        · right
          have : rangeList (rs + 1) re = [] := by
            rw [rangeList, if_neg (by omega)]
          rw [this]
          simp
      · left
        have : rangeList ros roe = [] := by
          rw [rangeList, if_neg (by omega)]
        rw [this]
        simp
    · left
      have : rangeList rs re = [] := by
        rw [rangeList, if_neg (by omega)]
      rw [this]
      simp

/-- Definitional unfolding of `join_to` on explicit range endpoints. -/
theorem join_to_eq (selfC other : Cycle) (rs re ros roe s : Nat) :
    join_to selfC other (rs, re) (ros, roe) s
      = if usizeSub re rs ≠ usizeSub roe ros then .error .rangesDifferentLengths
        else joinLoop selfC other
          ((rangeList rs re).zip (rangeList ros roe)) selfC s := rfl

/-- A successful `join_to` whose zipped ranges are the single pair `(rs, ros)`
is exactly one successful loop iteration. -/
theorem join_to_single_ok {selfC other : Cycle} {rs re ros roe s : Nat}
    {c : Cycle} {s2 : Nat}
    (h : join_to selfC other (rs, re) (ros, roe) s = .ok (c, s2))
    (hpairs : (rangeList rs re).zip (rangeList ros roe) = [(rs, ros)]) :
    joinIter selfC other selfC s (rs, ros) = .ok (c, s2) := by
  rw [join_to_eq] at h
  split at h
  · exact absurd h (by simp)
  · rw [hpairs] at h
    rcases joinLoop_cons_ok h with ⟨c1, s1, hiter, hrest⟩
    have := joinLoop_nil_ok hrest
    rw [show c = c1 from congrArg Prod.fst this,
      show s2 = s1 from congrArg Prod.snd this]
    exact hiter

/-- After the two replacements of one loop iteration the matched position holds
the curve-unified edge, provided that edge's fresh handle differs from the
replaced successor's handle. -/
theorem double_replace_at_matched {selfC : Cycle} {hE nE tJ nJ : HEdge} {kh : Nat}
    (hkh : nthEdge selfC kh = some hE) (htJ : tJ.id ≠ nE.id) :
    nthEdge (replaceHalfEdge (replaceHalfEdge selfC hE tJ) nE nJ) kh = some tJ := by
  simp only [nthEdge] at hkh ⊢
  simp only [replaceHalfEdge, List.get?_map, hkh, Option.map_some]
  simp [htJ]

/-- After the two replacements of one loop iteration the successor position
holds the vertex-unified edge. -/
theorem double_replace_at_next {selfC : Cycle} {hE nE tJ nJ : HEdge} {kn : Nat}
    (hkn : nthEdge selfC kn = some nE) (hne : nE.id ≠ hE.id) :
    nthEdge (replaceHalfEdge (replaceHalfEdge selfC hE tJ) nE nJ) kn = some nJ := by
  simp only [nthEdge] at hkn ⊢
  simp only [replaceHalfEdge, List.get?_map, hkn, Option.map_some]
  simp [hne]

/-- The two replacements of one loop iteration leave any position holding an
edge with a third handle untouched. -/
theorem double_replace_at_other {selfC : Cycle} {hE nE tJ nJ : HEdge} {k : Nat}
    {e : HEdge} (hk : nthEdge selfC k = some e) (h1 : e.id ≠ hE.id)
    (h2 : e.id ≠ nE.id) :
    nthEdge (replaceHalfEdge (replaceHalfEdge selfC hE tJ) nE nJ) k = some e := by
  simp only [nthEdge] at hk ⊢
  simp only [replaceHalfEdge, List.get?_map, hk, Option.map_some]
  simp [h1, h2]

/-- C1 (amended): `join_to` raises its length-mismatch fault exactly when the
two inclusive ranges differ in `end - start` (as computed in `usize`
arithmetic); and for equal-length ranges, whenever `join_to` returns a cycle,
that cycle's edge at each matched (reduced) index references the same curve
handle as the other cycle's matched edge. -/
theorem join_to_length_fault_iff_and_curve_sharing (selfC other : Cycle)
    (rs re ros roe s : Nat) (hnd : idsNodup selfC) (hfresh : freshFor s selfC) :
    (join_to selfC other (rs, re) (ros, roe) s = .error .rangesDifferentLengths
       ↔ usizeSub re rs ≠ usizeSub roe ros)
    ∧ (∀ c s2, join_to selfC other (rs, re) (ros, roe) s = .ok (c, s2) →
        ∀ pr ∈ (rangeList rs re).zip (rangeList ros roe),
          ∃ eo ec, nthEdge other (pr.2 % selfC.length) = some eo ∧
            nthEdge c (pr.1 % selfC.length) = some ec ∧ ec.curve = eo.curve) := by
  constructor
  · constructor
    · intro h
      by_contra heq
      rw [join_to_eq, if_neg (not_not_intro heq)] at h
      exact joinLoop_error_ne_mismatch h rfl
    · intro hne
      rw [join_to_eq, if_pos hne]
  · intro c s2 h pr hpr
    rcases join_to_ok_pairs hnd hfresh h with hp | hp
    · rw [hp] at hpr
      simp at hpr
    · rw [hp] at hpr
      have hpr2 : pr = (rs, ros) := by simpa using hpr
      subst hpr2
      have hsingle := join_to_single_ok h hp
      rcases joinIter_ok hsingle with ⟨hE, hEo, oNext, nE, hlen, h1, h2, h3, h4, heq⟩
      simp only [Prod.mk.injEq] at heq
      have hmemnE : nE ∈ selfC := by
        rw [halfEdgeAfter] at h4
        rcases hbind : idIndex selfC hE.id with _ | j
        · rw [hbind] at h4
          simp at h4
        · rw [hbind] at h4
          simp at h4
          exact nthEdge_mem h4
      have hne_lt : nE.id < s := hfresh nE hmemnE
      refine ⟨hEo,
        { hE with curve := hEo.curve, startVertex := oNext.startVertex, id := s },
        h2, ?_, rfl⟩
      rw [heq.1]
      exact double_replace_at_matched h1 (by omega : s ≠ nE.id)

/-- C1 counterexample: for the equal-length single-index ranges `0..=0` and
`2..=2`, on a 3-edge cycle joined to a 2-edge cycle, `join_to` does not return
a cycle at all: the other-cycle index `2` is reduced modulo the *receiver's*
length 3 and then overruns the other cycle, so the operation panics (with the
index fault, not the length-mismatch fault), contradicting the claim that
equal-length ranges always yield a joined cycle. -/
theorem join_to_equal_length_ranges_panic_cex :
    usizeSub 0 0 = usizeSub 2 2 ∧
    join_to [⟨0, 100, 200, .line ⟨0, 0⟩ ⟨1, 0⟩, (0, 1)⟩,
             ⟨1, 101, 201, .line ⟨0, 0⟩ ⟨1, 0⟩, (0, 1)⟩,
             ⟨2, 102, 202, .line ⟨0, 0⟩ ⟨1, 0⟩, (0, 1)⟩]
            [⟨10, 110, 210, .line ⟨0, 0⟩ ⟨1, 0⟩, (0, 1)⟩,
             ⟨11, 111, 211, .line ⟨0, 0⟩ ⟨1, 0⟩, (0, 1)⟩]
            (0, 0) (2, 2) 50 = .error .indexOutOfBounds := by
  constructor
  · rfl
  · rfl

/-! ### Concrete cycles used by the witnesses and counterexamples -/

/-- A throwaway local path for building concrete edges. -/
def exPath : SurfacePath := .line ⟨0, 0⟩ ⟨1, 0⟩

/-- A concrete 3-edge cycle. -/
def exSelf3 : Cycle :=
  [⟨0, 100, 200, exPath, (0, 1)⟩, ⟨1, 101, 201, exPath, (0, 1)⟩,
   ⟨2, 102, 202, exPath, (0, 1)⟩]

/-- A concrete 2-edge cycle (vertices 210 and 211). -/
def exOther2 : Cycle :=
  [⟨10, 110, 210, exPath, (0, 1)⟩, ⟨11, 111, 211, exPath, (0, 1)⟩]

/-- A concrete 1-edge cycle. -/
def exSelf1 : Cycle := [⟨0, 100, 200, exPath, (0, 1)⟩]

/-- A concrete 2-edge receiver cycle. -/
def exSelf2 : Cycle :=
  [⟨0, 100, 200, exPath, (0, 1)⟩, ⟨1, 101, 201, exPath, (0, 1)⟩]

/-- A concrete 1-edge other cycle. -/
def exOther1 : Cycle := [⟨10, 110, 210, exPath, (0, 1)⟩]

/-- C1 witness: the combined length-fault / curve-sharing theorem applied to
concrete cycles and the ranges `1..=1`, `0..=0`. -/
theorem join_to_length_fault_witness :
    idsNodup exSelf3 ∧ freshFor 50 exSelf3 ∧
    ((join_to exSelf3 exOther2 (1, 1) (0, 0) 50 = .error .rangesDifferentLengths
       ↔ usizeSub 1 1 ≠ usizeSub 0 0)
     ∧ (∀ c s2, join_to exSelf3 exOther2 (1, 1) (0, 0) 50 = .ok (c, s2) →
         ∀ pr ∈ (rangeList 1 1).zip (rangeList 0 0),
           ∃ eo ec, nthEdge exOther2 (pr.2 % exSelf3.length) = some eo ∧
             nthEdge c (pr.1 % exSelf3.length) = some ec ∧
             ec.curve = eo.curve)) :=
  ⟨by decide, by decide,
    join_to_length_fault_iff_and_curve_sharing exSelf3 exOther2 1 1 0 0 50
      (by decide) (by decide)⟩

/-- C5: the source reduces the other cycle's index modulo the *receiver's*
length (`index_other % self.len()`), not modulo the other cycle's own length.
At the failing input, index `1` of the 1-edge other cycle reduced modulo the
other cycle's length resolves to an edge (as the claim and the source's own
`expect` message promise), but reduced modulo the 2-edge receiver's length it
stays `1`, overruns the other cycle, and `join_to` panics. -/
theorem join_to_other_index_reduced_mod_self_len :
    1 % exOther1.length = 0 ∧
    (nthEdge exOther1 (1 % exOther1.length)).isSome = true ∧
    1 % exSelf2.length = 1 ∧
    nthEdge exOther1 (1 % exSelf2.length) = none ∧
    join_to exSelf2 exOther1 (0, 0) (1, 1) 50 = .error .indexOutOfBounds :=
  ⟨rfl, rfl, rfl, rfl, rfl⟩

/-- C6 (amended): whenever the receiver cycle has at least two half-edges and
`join_to` returns a cycle, then for every processed index pair the joined
edge's start vertex is the start vertex of the edge after the matched edge in
the other cycle, and the edge at the successor position starts at the matched
other edge's start vertex. -/
theorem join_to_vertex_unification (selfC other : Cycle)
    (rs re ros roe s : Nat) (hnd : idsNodup selfC) (hfresh : freshFor s selfC)
    (h2n : 2 ≤ selfC.length) :
    ∀ c s2, join_to selfC other (rs, re) (ros, roe) s = .ok (c, s2) →
      ∀ pr ∈ (rangeList rs re).zip (rangeList ros roe),
        ∃ eo eoNext ec ecNext,
          nthEdge other (pr.2 % selfC.length) = some eo ∧
          halfEdgeAfter other eo = some eoNext ∧
          nthEdge c (pr.1 % selfC.length) = some ec ∧
          nthEdge c ((pr.1 % selfC.length + 1) % selfC.length) = some ecNext ∧
          ec.startVertex = eoNext.startVertex ∧
          ecNext.startVertex = eo.startVertex := by
  intro c s2 h pr hpr
  rcases join_to_ok_pairs hnd hfresh h with hp | hp
  · rw [hp] at hpr
    simp at hpr
  · rw [hp] at hpr
    have hpr2 : pr = (rs, ros) := by simpa using hpr
    subst hpr2
    have hsingle := join_to_single_ok h hp
    rcases joinIter_ok hsingle with ⟨hE, hEo, oNext, nE, hlen, h1, h2, h3, h4, heq⟩
    simp only [Prod.mk.injEq] at heq
    have hidx := idIndex_of_nodup hnd h1
    have h4n : nthEdge selfC ((rs % selfC.length + 1) % selfC.length) = some nE := by
      rw [halfEdgeAfter, hidx] at h4
      simpa using h4
    have hne_lt : nE.id < s := hfresh nE (nthEdge_mem h4n)
    have hkk : (rs % selfC.length + 1) % selfC.length ≠ rs % selfC.length :=
      succ_mod_ne_self h2n (Nat.mod_lt rs (by omega))
    have hneh : nE.id ≠ hE.id := id_ne_of_nodup hnd h4n h1 hkk
    refine ⟨hEo, oNext,
      { hE with curve := hEo.curve, startVertex := oNext.startVertex, id := s },
      { nE with startVertex := hEo.startVertex, id := s + 1 },
      h2, h3, ?_, ?_, rfl, rfl⟩
    · rw [heq.1]
      exact double_replace_at_matched h1 (by omega : s ≠ nE.id)
    · rw [heq.1]
      exact double_replace_at_next h4n hneh

/-- C6 counterexample: on a one-edge receiver cycle, the "next edge" of the
joined edge is the joined edge itself, and the second vertex replacement is
dropped: the returned cycle's only edge starts at the other cycle's *next*
edge's vertex (211), so the edge after the joined edge does not start at the
matched other edge's start vertex (210), contradicting the claim. -/
theorem join_to_one_edge_cycle_vertex_cex :
    join_to exSelf1 exOther2 (0, 0) (0, 0) 50
      = .ok ([⟨50, 110, 211, exPath, (0, 1)⟩], 52) ∧
    (halfEdgeAfter [⟨50, 110, 211, exPath, (0, 1)⟩]
        ⟨50, 110, 211, exPath, (0, 1)⟩).map HEdge.startVertex = some 211 ∧
    (nthEdge exOther2 (0 % exSelf1.length)).map HEdge.startVertex = some 210 ∧
    (211 : Nat) ≠ 210 :=
  ⟨rfl, rfl, rfl, by decide⟩

/-- C6 witness: the vertex-unification theorem applied to concrete cycles and
the ranges `1..=1`, `1..=1`. -/
theorem join_to_vertex_unification_witness :
    idsNodup exSelf3 ∧ freshFor 50 exSelf3 ∧ 2 ≤ exSelf3.length ∧
    (∀ c s2, join_to exSelf3 exOther2 (1, 1) (1, 1) 50 = .ok (c, s2) →
      ∀ pr ∈ (rangeList 1 1).zip (rangeList 1 1),
        ∃ eo eoNext ec ecNext,
          nthEdge exOther2 (pr.2 % exSelf3.length) = some eo ∧
          halfEdgeAfter exOther2 eo = some eoNext ∧
          nthEdge c (pr.1 % exSelf3.length) = some ec ∧
          nthEdge c ((pr.1 % exSelf3.length + 1) % exSelf3.length) = some ecNext ∧
          ec.startVertex = eoNext.startVertex ∧
          ecNext.startVertex = eo.startVertex) :=
  ⟨by decide, by decide, by decide,
    join_to_vertex_unification exSelf3 exOther2 1 1 1 1 50
      (by decide) (by decide) (by decide)⟩

/-- C10: whenever `join_to` returns a cycle, it has as many half-edges as the
receiver, and every position whose index is neither a reduced index of the
joined range nor the successor of such an index still holds the identical
handle. -/
theorem join_to_frame (selfC other : Cycle) (rs re ros roe s : Nat)
    (hnd : idsNodup selfC) (hfresh : freshFor s selfC) :
    ∀ c s2, join_to selfC other (rs, re) (ros, roe) s = .ok (c, s2) →
      c.length = selfC.length ∧
      ∀ k, k < selfC.length →
        (∀ pr ∈ (rangeList rs re).zip (rangeList ros roe),
          k ≠ pr.1 % selfC.length ∧ k ≠ (pr.1 % selfC.length + 1) % selfC.length) →
        nthEdge c k = nthEdge selfC k := by
  intro c s2 h
  rcases join_to_ok_pairs hnd hfresh h with hp | hp
  · rw [join_to_eq] at h
    split at h
    · exact absurd h (by simp)
    · rw [hp] at h
      have hres := joinLoop_nil_ok h
      have hc : c = selfC := congrArg Prod.fst hres
      constructor
      · rw [hc]
      · intro k _ _
        rw [hc]
  · have hsingle := join_to_single_ok h hp
    rcases joinIter_ok hsingle with ⟨hE, hEo, oNext, nE, hlen, h1, h2, h3, h4, heq⟩
    simp only [Prod.mk.injEq] at heq
    have hidx := idIndex_of_nodup hnd h1
    have h4n : nthEdge selfC ((rs % selfC.length + 1) % selfC.length) = some nE := by
      rw [halfEdgeAfter, hidx] at h4
      simpa using h4
    constructor
    · rw [heq.1, replaceHalfEdge_length, replaceHalfEdge_length]
    · intro k hk hnot
      have hnotk := hnot (rs, ros) (by rw [hp]; simp)
      obtain ⟨hk1, hk2⟩ := hnotk
      obtain ⟨e, he⟩ : ∃ e, nthEdge selfC k = some e := ⟨_, nthEdge_of_lt selfC hk⟩
      rw [heq.1, he]
      exact double_replace_at_other he (id_ne_of_nodup hnd he h1 hk1)
        (id_ne_of_nodup hnd he h4n hk2)

/-- C10 witness: the frame theorem applied to concrete cycles and the ranges
`2..=2`, `1..=1`. -/
theorem join_to_frame_witness :
    idsNodup exSelf3 ∧ freshFor 50 exSelf3 ∧
    (∀ c s2, join_to exSelf3 exOther2 (2, 2) (1, 1) 50 = .ok (c, s2) →
      c.length = exSelf3.length ∧
      ∀ k, k < exSelf3.length →
        (∀ pr ∈ (rangeList 2 2).zip (rangeList 1 1),
          k ≠ pr.1 % exSelf3.length ∧
          k ≠ (pr.1 % exSelf3.length + 1) % exSelf3.length) →
        nthEdge c k = nthEdge exSelf3 k) :=
  ⟨by decide, by decide,
    join_to_frame exSelf3 exOther2 2 2 1 1 50 (by decide) (by decide)⟩

/-! ### `add_joined_edges` lemmas -/

theorem zip_get?2 {α β : Type} (l1 : List α) (l2 : List β) (j : Nat) :
    (l1.zip l2).get? j
      = (l1.get? j).bind fun a => (l2.get? j).map fun b => (a, b) := by
  induction l1 generalizing l2 j with
  | nil => simp
  | cons a as ih =>
    cases l2 with
    | nil => simp
    | cons b bs =>
      cases j with
      | zero => simp
      | succ j0 => simpa using ih bs j0

theorem addJoinedLoop_length (ws : List (JoinInput × JoinInput)) (s : Nat) :
    (addJoinedLoop ws s).1.length = ws.length := by
  induction ws generalizing s with
  | nil => simp [addJoinedLoop]
  | cons w rest ih =>
    obtain ⟨prev, cur⟩ := w
    simp [addJoinedLoop, ih (s + 3)]

/-- Every position of the built edge list holds an edge assembled from the
corresponding circular window: curve from the window's second (current)
element, start vertex from its first (previous) element, with a handle
allocated at or after `s`. -/
theorem addJoinedLoop_get (ws : List (JoinInput × JoinInput)) (s j : Nat)
    (w : JoinInput × JoinInput) (hw : ws.get? j = some w) :
    ∃ ne, (addJoinedLoop ws s).1.get? j = some ne ∧
      ne.curve = w.2.1.curve ∧ ne.startVertex = w.1.1.startVertex ∧
      ne.path = w.2.2.1 ∧ ne.boundary = w.2.2.2 ∧ s ≤ ne.id := by
  induction ws generalizing s j w with
  | nil => simp at hw
  | cons w0 rest ih =>
    obtain ⟨prev, cur⟩ := w0
    cases j with
    | zero =>
      have hw2 : (prev, cur) = w := by simpa using hw
      subst hw2
      exact ⟨_, rfl, rfl, rfl, rfl, rfl, Nat.le_add_right s 2⟩
    | succ j0 =>
      simp only [List.get?_cons_succ] at hw
      rcases ih (s + 3) j0 w hw with ⟨ne, hne, hc, hv, hp2, hb, hs⟩
      refine ⟨ne, ?_, hc, hv, hp2, hb, by omega⟩
      simpa [addJoinedLoop] using hne

/-- The circular windows pair each input with its cyclic successor. -/
theorem circularPairs_get (xs : List JoinInput) (j : Nat) (hj : j < xs.length) :
    ∃ a b, (circularPairs xs).get? j = some (a, b) ∧
      xs.get? j = some a ∧ xs.get? ((j + 1) % xs.length) = some b := by
  have ha : xs.get? j = some (xs.get ⟨j, hj⟩) := List.get?_eq_get hj
  have hb : (xs.rotate 1).get? j = xs.get? ((j + 1) % xs.length) :=
    List.get?_rotate hj
  have hlt : (j + 1) % xs.length < xs.length :=
    Nat.mod_lt _ (by omega)
  have hb2 : xs.get? ((j + 1) % xs.length)
      = some (xs.get ⟨(j + 1) % xs.length, hlt⟩) := List.get?_eq_get hlt
  refine ⟨xs.get ⟨j, hj⟩, xs.get ⟨(j + 1) % xs.length, hlt⟩, ?_, ha, hb2⟩
  rw [circularPairs, zip_get?2, ha, hb, hb2]
  rfl

/-- C8: `add_joined_edges` extends the cycle by one newly constructed edge per
input triple; the new edge corresponding to input triple `i` reuses the curve
handle of input edge `i` and the start-vertex handle of the cyclically
previous input edge, and its handle is freshly allocated. -/
theorem add_joined_edges_spec (selfC : Cycle) (edges : List JoinInput) (s : Nat)
    (hne : edges ≠ []) :
    (add_joined_edges selfC edges s).1.length = selfC.length + edges.length ∧
    ∀ i, i < edges.length →
      ∃ ne prevIn curIn,
        edges.get? i = some curIn ∧
        edges.get? ((i + edges.length - 1) % edges.length) = some prevIn ∧
        (add_joined_edges selfC edges s).1.get?
          (selfC.length + (i + edges.length - 1) % edges.length) = some ne ∧
        ne.curve = curIn.1.curve ∧ ne.startVertex = prevIn.1.startVertex ∧
        s ≤ ne.id := by
  have hn0 : 0 < edges.length := List.length_pos.mpr hne
  constructor
  · rw [add_joined_edges]
    simp only [List.length_append, addJoinedLoop_length]
    rw [circularPairs, List.length_zip, List.length_rotate, Nat.min_self]
  · intro i hi
    have hn0b : 0 < edges.length := hn0
    have hj : (i + edges.length - 1) % edges.length < edges.length :=
      Nat.mod_lt _ hn0b
    have hji : ((i + edges.length - 1) % edges.length + 1) % edges.length = i := by
      rw [mod_succ_mod]
      have h1 : i + edges.length - 1 + 1 = i + edges.length := by omega
      rw [h1, Nat.add_mod_right]
      exact Nat.mod_eq_of_lt hi
    rcases circularPairs_get edges ((i + edges.length - 1) % edges.length) hj with
      ⟨a, b, hab, ha, hb⟩
    rw [hji] at hb
    rcases addJoinedLoop_get (circularPairs edges) s
        ((i + edges.length - 1) % edges.length) (a, b) hab with
      ⟨ne, hget, hc, hv, _, _, hs⟩
    refine ⟨ne, a, b, hb, ha, ?_, hc, hv, hs⟩
    rw [add_joined_edges]
    simp only
    rw [List.get?_append_right (Nat.le_add_right selfC.length _)]
    rw [Nat.add_sub_cancel_left]
    exact hget

/-- The concrete input triples the `add_joined_edges` witness runs on. -/
def exTriples : List JoinInput :=
  [(⟨0, 100, 200, exPath, (0, 1)⟩, exPath, (0, 1)),
   (⟨1, 101, 201, exPath, (0, 1)⟩, exPath, (0, 1)),
   (⟨2, 102, 202, exPath, (0, 1)⟩, exPath, (0, 1))]

/-- C8 witness: the theorem applied to a concrete 3-triple input appended to an
empty cycle. -/
theorem add_joined_edges_spec_witness :
    exTriples ≠ [] ∧
    ((add_joined_edges [] exTriples 50).1.length = ([] : Cycle).length + exTriples.length ∧
     ∀ i, i < exTriples.length →
      ∃ ne prevIn curIn,
        exTriples.get? i = some curIn ∧
        exTriples.get? ((i + exTriples.length - 1) % exTriples.length) = some prevIn ∧
        (add_joined_edges [] exTriples 50).1.get?
            (([] : Cycle).length + (i + exTriples.length - 1) % exTriples.length) = some ne ∧
        ne.curve = curIn.1.curve ∧ ne.startVertex = prevIn.1.startVertex ∧
        50 ≤ ne.id) :=
  ⟨by decide, add_joined_edges_spec [] exTriples 50 (by decide)⟩

/-! ## The approximation engine, `fj-kernel/src/algorithms/approx/curve.rs`

The path-level sampler (`approx/path.rs`) and the `Curve`/`Surface` object
types are not among the sources; they are modelled from the spec.  The
operations `approx_with_cache`, `approx_global_curve` and the `CurveCache` are
translated from the source.  The sine/cosine evaluations of a circle
parametrisation are abstracted into a `Trig` record of rational functions, and
the tolerance-derived subdivision count of the sampler is abstracted into a
natural number `m` (the spec's chord-sag formula chooses some such count for
every strictly positive tolerance; no claim depends on the numeric relation
between the tolerance and the count). -/

/-- The two transcendental evaluations of a circle parametrisation, abstracted
as explicit rational functions. -/
structure Trig where
  cosq : ℚ → ℚ
  sinq : ℚ → ℚ

def v2add (p q : Vec2) : Vec2 := ⟨p.u + q.u, p.v + q.v⟩

def v2smul (c : ℚ) (p : Vec2) : Vec2 := ⟨c * p.u, c * p.v⟩

def v3add (p q : Vec3) : Vec3 := ⟨p.x + q.x, p.y + q.y, p.z + q.z⟩

def v3smul (c : ℚ) (p : Vec3) : Vec3 := ⟨c * p.x, c * p.y, c * p.z⟩

/-- `SurfacePath::point_from_path_coords`: evaluate the local path at a
1-dimensional path coordinate. -/
def pointFromPathCoords (trig : Trig) : SurfacePath → ℚ → Vec2
  | .line o d, t => v2add o (v2smul t d)
  | .circle c a b, t => v2add c (v2add (v2smul (trig.cosq t) a) (v2smul (trig.sinq t) b))

/-- `GlobalPath::point_from_path_coords`. -/
def globalPointFromPathCoords (trig : Trig) : GlobalPath → ℚ → Vec3
  | .line o d, t => v3add o (v3smul t d)
  | .circle c a b, t => v3add c (v3add (v3smul (trig.cosq t) a) (v3smul (trig.sinq t) b))

/-- Modelled from the spec: a `Surface` is "underlying global path + a
local-to-global mapping rule" (a swept curve: the `u` axis runs along the
global path, the `v` axis along a fixed vector). -/
structure SurfaceQ where
  u : GlobalPath
  v : Vec3
deriving DecidableEq

/-- `Surface::point_from_surface_coords`: modelled from the spec's
local-to-global mapping rule of a swept curve. -/
def pointFromSurfaceCoords (trig : Trig) (s : SurfaceQ) (p : Vec2) : Vec3 :=
  v3add (globalPointFromPathCoords trig s.u p.u) (v3smul p.v s.v)

/-- A `Curve`: a local path on a surface, plus the handle of its global form
(the cache key). -/
structure CurveQ where
  path : SurfacePath
  surface : SurfaceQ
  globalForm : Nat
deriving DecidableEq

/-- `RangeOnPath`: the two 1-dimensional boundary points of the requested
parameter range. -/
structure RangeOnPath where
  a : ℚ
  b : ℚ
deriving DecidableEq

/-- Modelled from the spec: the path-level circle sampler subdivides the range
uniformly into `m` steps, the largest count whose chord-sag error is within
tolerance, and "the range's two boundary points are deliberately excluded from
the returned sequence ... the result is always a sequence of strictly-interior
samples": it returns the `m - 1` interior subdivision points, and no samples
at all for a degenerate (empty-interior) range. -/
def circleParams (m : Nat) (a b : ℚ) : List ℚ :=
  if a = b then []
  else (List.range (m - 1)).map fun (i : Nat) => a + (b - a) * ((i : ℚ) + 1) / (m : ℚ)

/-- Modelled from the spec: path-level approximation of a local path.  Lines
need no approximation and yield no points; circles are sampled at the interior
subdivision points, each paired with its surface point. -/
def surfacePathApprox (trig : Trig) (m : Nat) (p : SurfacePath) (a b : ℚ) :
    List (ℚ × Vec2) :=
  match p with
  | .line _ _ => []
  | .circle _ _ _ => (circleParams m a b).map fun t => (t, pointFromPathCoords trig p t)

/-- Modelled from the spec: path-level approximation of a global path. -/
def globalPathApprox (trig : Trig) (m : Nat) (p : GlobalPath) (a b : ℚ) :
    List (ℚ × Vec3) :=
  match p with
  | .line _ _ => []
  | .circle _ _ _ => (circleParams m a b).map fun t => (t, globalPointFromPathCoords trig p t)

/-- The panic of the unsupported circle-on-curved-surface case (`todo!`). -/
inductive ApproxPanic where
  | notYetSupported
deriving DecidableEq

/-- `approx_global_curve` (source lines 54-127): dispatch on the pair
(local path kind, global path kind of the surface's `u` axis).

* circle on circle: `todo!("Approximating a circle on a curved surface not
  supported yet.")`;
* circle on line: sample the local circle, recompute each sample's global
  point through the surface;
* line on anything: map the range's boundary through the line into the
  surface's `u` coordinate, sample the surface's own global path over that
  `u` range, and for each sample `u` recover the line parameter
  `t = (u - origin.u) / dir.u`; the *stored* 1-dimensional coordinate of the
  sample is `u` itself (`points.push((u, point_global))` in the source), while
  the global point is computed from `t`. -/
def approx_global_curve (trig : Trig) (m : Nat) (curve : CurveQ)
    (range : RangeOnPath) : Except ApproxPanic (List (ℚ × Vec3)) :=
  match curve.path, curve.surface.u with
  | .circle _ _ _, .circle _ _ _ => .error .notYetSupported
  | .circle _ _ _, .line _ _ =>
    .ok ((surfacePathApprox trig m curve.path range.a range.b).map
      fun pc => (pc.1, pointFromSurfaceCoords trig curve.surface pc.2))
  | .line o d, _ =>
    .ok ((globalPathApprox trig m curve.surface.u
            (pointFromPathCoords trig curve.path range.a).u
            (pointFromPathCoords trig curve.path range.b).u).map
      fun ug => (ug.1,
        pointFromSurfaceCoords trig curve.surface
          (pointFromPathCoords trig curve.path ((ug.1 - o.u) / d.u))))

/-- An `ApproxPoint<2>`: surface point, global point, and the source
back-reference `(curve, local 1-dimensional coordinate)`. -/
structure ApproxPoint2 where
  pointSurface : Vec2
  pointGlobal : Vec3
  sourceCurve : CurveQ
  sourceParam : ℚ
deriving DecidableEq

/-- A `CurveApprox`. -/
structure CurveApprox where
  points : List ApproxPoint2
deriving DecidableEq

/-- A `GlobalCurveApprox`. -/
structure GlobalCurveApprox where
  points : List (ℚ × Vec3)
deriving DecidableEq

/-- The key of the approximation cache: the *global-curve handle* and the
range; the tolerance is not part of the key. -/
abbrev CacheKey := Nat × RangeOnPath

/-- `CurveCache`: a map from cache keys to global-curve approximations. -/
abbrev CurveCache := List (CacheKey × GlobalCurveApprox)

/-- `CurveCache::get`. -/
def cacheGet (cache : CurveCache) (key : CacheKey) : Option GlobalCurveApprox :=
  match cache with
  | [] => none
  | kv :: rest => if kv.1 = key then some kv.2 else cacheGet rest key

/-- `CurveCache::insert` (the map's previous binding for the key, if any, is
shadowed, as for `BTreeMap::insert`). -/
def cacheInsert (cache : CurveCache) (key : CacheKey)
    (approx : GlobalCurveApprox) : CurveCache :=
  (key, approx) :: cache

/-- `CurveApprox::empty().with_points(..)` as used in `approx_with_cache`
(source lines 42-50): map every cached global sample to an `ApproxPoint<2>`,
recomputing the surface point from the stored 1-dimensional coordinate. -/
def with_points (trig : Trig) (curve : CurveQ) (g : GlobalCurveApprox) :
    CurveApprox :=
  ⟨g.points.map fun pt =>
    { pointSurface := pointFromPathCoords trig curve.path pt.1,
      pointGlobal := pt.2, sourceCurve := curve, sourceParam := pt.1 }⟩

/-- `approx_with_cache` (source lines 26-51): answer from the cache when the
key `(global_form, range)` is present, otherwise run `approx_global_curve` and
insert the result.  The final boolean records whether the underlying sampler
ran during this call (the observable the spec's determinism property talks
about). -/
def approx_with_cache (trig : Trig) (m : Nat) (curve : CurveQ)
    (range : RangeOnPath) (cache : CurveCache) :
    Except ApproxPanic (CurveApprox × CurveCache × Bool) :=
  match cacheGet cache (curve.globalForm, range) with
  | some g => .ok (with_points trig curve g, cache, false)
  | none =>
    match approx_global_curve trig m curve range with
    | .error e => .error e
    | .ok pts =>
      .ok (with_points trig curve ⟨pts⟩,
           cacheInsert cache (curve.globalForm, range) ⟨pts⟩, true)

/-! ### Interiority of the samples (C2) -/

/-- `t` lies strictly between `a` and `b` (in either orientation of the
range). -/
def strictlyBetween (a b t : ℚ) : Prop :=
  (a < t ∧ t < b) ∨ (b < t ∧ t < a)

instance (a b t : ℚ) : Decidable (strictlyBetween a b t) :=
  inferInstanceAs (Decidable (_ ∨ _))

/-- Every sample of the spec-modelled circle sampler is strictly interior to
the requested range. -/
theorem circleParams_strict {m : Nat} {a b t : ℚ}
    (ht : t ∈ circleParams m a b) : strictlyBetween a b t := by
  unfold circleParams at ht
  split at ht
  · simp at ht
  · rename_i hab
    rcases List.mem_map.mp ht with ⟨i, hi0, rfl⟩
    have hi : i < m - 1 := List.mem_range.mp hi0
    have hm : 2 ≤ m := by omega
    have hm0 : (0 : ℚ) < (m : ℚ) := by
      exact_mod_cast Nat.lt_of_lt_of_le (by norm_num) hm
    have hq1 : 0 < ((i : ℚ) + 1) / (m : ℚ) := div_pos (by positivity) hm0
    have hq2 : ((i : ℚ) + 1) / (m : ℚ) < 1 := by
      rw [div_lt_one hm0]
      have : i + 1 < m := by omega
      exact_mod_cast this
    rcases lt_or_gt_of_ne hab with hlt | hgt
    · left
      constructor
      · have h1 : 0 < (b - a) * (((i : ℚ) + 1) / (m : ℚ)) :=
          mul_pos (by linarith) hq1
        rw [mul_div_assoc]
        linarith
      · have h2 : (b - a) * (((i : ℚ) + 1) / (m : ℚ)) < (b - a) * 1 :=
          mul_lt_mul_of_pos_left hq2 (by linarith)
        rw [mul_div_assoc]
        linarith
    · right
      constructor
      · have h2 : (b - a) * 1 < (b - a) * (((i : ℚ) + 1) / (m : ℚ)) := by
          apply mul_lt_mul_of_neg_left hq2 (by linarith)
        rw [mul_div_assoc]
        linarith
      · have h1 : (b - a) * (((i : ℚ) + 1) / (m : ℚ)) < 0 :=
          mul_neg_of_neg_of_pos (by linarith) hq1
        rw [mul_div_assoc]
        linarith

/-- Pulling strict interiority back through the affine map
`t ↦ origin + t * dir` of a line's `u` coordinate. -/
theorem strictlyBetween_affine_inv {o d a b u : ℚ} (hd : d ≠ 0)
    (h : strictlyBetween (o + a * d) (o + b * d) u) :
    strictlyBetween a b ((u - o) / d) := by
  rcases hd.lt_or_lt with hdneg | hdpos
  · rcases h with ⟨h1, h2⟩ | ⟨h1, h2⟩
    · right
      constructor
      · rw [lt_div_iff_of_neg hdneg]
        linarith
      · rw [div_lt_iff_of_neg hdneg]
        linarith
    · left
      constructor
      · rw [lt_div_iff_of_neg hdneg]
        linarith
      · rw [div_lt_iff_of_neg hdneg]
        linarith
  · rcases h with ⟨h1, h2⟩ | ⟨h1, h2⟩
    · left
      constructor
      · rw [lt_div_iff hdpos]
        linarith
      · rw [div_lt_iff hdpos]
        linarith
    · right
      constructor
      · rw [lt_div_iff hdpos]
        linarith
      · rw [div_lt_iff hdpos]
        linarith

/-- C2 (amended): every sample produced by the curve sampler arises from a
curve parameter strictly interior to the requested range, and its global point
is the curve's point at that interior parameter.  For circle local paths the
stored 1-dimensional coordinate is that parameter itself; for line local paths
the stored coordinate is the *surface-path* coordinate `origin.u + t * dir.u`
of the interior parameter `t`, which may coincide with a boundary value of the
range or fall outside the range when the line's `u` parametrisation is not the
identity. -/
theorem approx_global_curve_interior (trig : Trig) (m : Nat) (curve : CurveQ)
    (range : RangeOnPath) (pts : List (ℚ × Vec3))
    (h : approx_global_curve trig m curve range = .ok pts) :
    ∀ p ∈ pts, ∃ t, strictlyBetween range.a range.b t ∧
      p.2 = pointFromSurfaceCoords trig curve.surface
              (pointFromPathCoords trig curve.path t) ∧
      ((∃ c a2 b2, curve.path = .circle c a2 b2) → p.1 = t) ∧
      (∀ o d, curve.path = .line o d → p.1 = o.u + t * d.u) := by
  intro p hp
  rcases hpath : curve.path with ⟨o, d⟩ | ⟨cc, ca, cb⟩
  · -- line local path
    unfold approx_global_curve at h
    rw [hpath] at h
    rcases hu : curve.surface.u with ⟨go, gd⟩ | ⟨gc, ga, gb⟩
    · rw [hu] at h
      simp only [globalPathApprox, List.map_nil] at h
      rw [← Except.ok.inj h] at hp
      simp at hp
    · rw [hu] at h
      rw [← Except.ok.inj h] at hp
      simp only [globalPathApprox, List.map_map, List.mem_map] at hp
      rcases hp with ⟨t0, ht0, rfl⟩
      by_cases hdu : d.u = 0
      · exfalso
        have hab : (pointFromPathCoords trig (.line o d) range.a).u
            = (pointFromPathCoords trig (.line o d) range.b).u := by
          simp [pointFromPathCoords, v2add, v2smul, hdu]
        rw [hab] at ht0
        unfold circleParams at ht0
        rw [if_pos rfl] at ht0
        simp at ht0
      · refine ⟨(t0 - o.u) / d.u, ?_, ?_, ?_, ?_⟩
        · have hb := circleParams_strict ht0
          have hua : (pointFromPathCoords trig (.line o d) range.a).u
              = o.u + range.a * d.u := by
            simp [pointFromPathCoords, v2add, v2smul]
          have hub : (pointFromPathCoords trig (.line o d) range.b).u
              = o.u + range.b * d.u := by
            simp [pointFromPathCoords, v2add, v2smul]
          rw [hua, hub] at hb
          exact strictlyBetween_affine_inv hdu hb
        · simp [Function.comp]
        · intro hcontra
          rcases hcontra with ⟨c2, a2, b2, hc2⟩
          exact absurd hc2 (by simp)
        · intro o2 d2 ho2
          injection ho2 with ho hd2
          subst ho
          subst hd2
          simp only [Function.comp]
          rw [div_mul_cancel₀ _ hdu]
          ring
  · -- circle local path
    unfold approx_global_curve at h
    rw [hpath] at h
    rcases hu : curve.surface.u with ⟨go, gd⟩ | ⟨gc, ga, gb⟩
    · rw [hu] at h
      rw [← Except.ok.inj h] at hp
      simp only [surfacePathApprox, List.map_map, List.mem_map] at hp
      rcases hp with ⟨t0, ht0, rfl⟩
      refine ⟨t0, circleParams_strict ht0, ?_, fun _ => rfl, ?_⟩
      · simp [Function.comp]
      · intro o2 d2 ho2
        exact absurd ho2 (by simp)
    · rw [hu] at h
      exact absurd h (by simp)

instance {ε α : Type} [DecidableEq ε] [DecidableEq α] :
    DecidableEq (Except ε α) := fun x y =>
  match x, y with
  | .error a, .error b =>
    if h : a = b then isTrue (by rw [h])
    else isFalse (fun hc => by injection hc with h2; exact h h2)
  | .error _, .ok _ => isFalse (fun hc => Except.noConfusion hc)
  | .ok _, .error _ => isFalse (fun hc => Except.noConfusion hc)
  | .ok a, .ok b =>
    if h : a = b then isTrue (by rw [h])
    else isFalse (fun hc => by injection hc with h2; exact h h2)

/-- A concrete trig record for witnesses (any rational functions will do;
the theorems hold for all of them). -/
def trigEx : Trig := ⟨fun _ => 1, fun _ => 0⟩

/-- A line whose `u` parametrisation has slope 2, on a curved (circular `u`
path) surface: the configuration of the C2 counterexample. -/
def cexCurveC2 : CurveQ :=
  { path := .line ⟨0, 0⟩ ⟨2, 0⟩,
    surface := { u := .circle ⟨0, 0, 0⟩ ⟨1, 0, 0⟩ ⟨0, 1, 0⟩, v := ⟨0, 0, 1⟩ },
    globalForm := 7 }

/-- C2 counterexample: for the line `u = 2t` on a curved surface, over the
range `[0, 1]` with subdivision count 4, the stored 1-dimensional sample
coordinates are `[1/2, 1, 3/2]`: the value `1` *equals* the range's upper
boundary point and `3/2` lies outside the range entirely, so the returned
sequence does contain a boundary point of the requested range and is not a
sequence of strictly-interior values. -/
theorem approx_sample_at_boundary_coordinate_cex :
    (approx_global_curve trigEx 4 cexCurveC2 ⟨0, 1⟩).map (List.map Prod.fst)
      = .ok [1/2, 1, 3/2] ∧
    [(1 : ℚ)/2, 1, 3/2].get? 1 = some ((⟨0, 1⟩ : RangeOnPath).b) ∧
    ¬ strictlyBetween 0 1 (1 : ℚ) ∧ ¬ strictlyBetween 0 1 (3/2 : ℚ) := by
  have h3 : List.range 3 = [0, 1, 2] := rfl
  refine ⟨?_, rfl, ?_, ?_⟩
  · simp only [approx_global_curve, cexCurveC2, globalPathApprox, circleParams,
      pointFromPathCoords, v2add, v2smul, trigEx, h3, List.map_cons,
      List.map_nil, Except.map]
    norm_num
  · intro hc
    rcases hc with ⟨h1, h2⟩ | ⟨h1, h2⟩
    · exact absurd h2 (by norm_num)
    · exact absurd h1 (by norm_num)
  · intro hc
    rcases hc with ⟨h1, h2⟩ | ⟨h1, h2⟩
    · exact absurd h2 (by norm_num)
    · exact absurd h2 (by norm_num)

/-- A circle on a flat (line `u` path) surface: the C2 witness configuration. -/
def witCurveC2 : CurveQ :=
  { path := .circle ⟨0, 0⟩ ⟨1, 0⟩ ⟨0, 1⟩,
    surface := { u := .line ⟨0, 0, 0⟩ ⟨1, 0, 0⟩, v := ⟨0, 0, 1⟩ },
    globalForm := 8 }

/-- The samples the C2 witness computes. -/
def witPtsC2 : List (ℚ × Vec3) :=
  [(1/4, ⟨1, 0, 0⟩), (1/2, ⟨1, 0, 0⟩), (3/4, ⟨1, 0, 0⟩)]

/-- C2 witness: the interiority theorem applied to a concrete circle on a flat
surface over the range `[0, 1]` with subdivision count 4. -/
theorem approx_global_curve_interior_witness :
    approx_global_curve trigEx 4 witCurveC2 ⟨0, 1⟩ = .ok witPtsC2 ∧
    (∀ p ∈ witPtsC2, ∃ t, strictlyBetween (0 : ℚ) 1 t ∧
      p.2 = pointFromSurfaceCoords trigEx witCurveC2.surface
              (pointFromPathCoords trigEx witCurveC2.path t) ∧
      ((∃ c a2 b2, witCurveC2.path = .circle c a2 b2) → p.1 = t) ∧
      (∀ o d, witCurveC2.path = .line o d → p.1 = o.u + t * d.u)) :=
  have h : approx_global_curve trigEx 4 witCurveC2 ⟨0, 1⟩ = .ok witPtsC2 := by
    have h3 : List.range 3 = [0, 1, 2] := rfl
    simp only [approx_global_curve, witCurveC2, surfacePathApprox, circleParams,
      pointFromPathCoords, pointFromSurfaceCoords, globalPointFromPathCoords,
      v2add, v2smul, v3add, v3smul, trigEx, h3, List.map_cons, List.map_nil,
      witPtsC2]
    norm_num
  ⟨h, approx_global_curve_interior trigEx 4 witCurveC2 ⟨0, 1⟩ witPtsC2 h⟩

/-! ### The cache (C3, C9) -/

theorem cacheGet_insert (cache : CurveCache) (key : CacheKey)
    (g : GlobalCurveApprox) : cacheGet (cacheInsert cache key g) key = some g := by
  simp [cacheGet, cacheInsert]

/-- C3: approximating the same curve and range twice through the same cache
with the same tolerance returns the identical point sequence, and the second
call does not run the underlying sampler (its sampler-ran flag is `false`). -/
theorem approx_with_cache_second_call (trig : Trig) (m : Nat) (curve : CurveQ)
    (range : RangeOnPath) (cache : CurveCache) (r : CurveApprox)
    (c1 : CurveCache) (b : Bool)
    (h : approx_with_cache trig m curve range cache = .ok (r, c1, b)) :
    approx_with_cache trig m curve range c1 = .ok (r, c1, false) := by
  unfold approx_with_cache at h ⊢
  cases hg : cacheGet cache (curve.globalForm, range) with
  | some g =>
    rw [hg] at h
    simp only [Except.ok.injEq, Prod.mk.injEq] at h
    obtain ⟨hr, hc, _⟩ := h
    rw [← hc, hg]
    dsimp only
    rw [hr]
  | none =>
    rw [hg] at h
    cases ha : approx_global_curve trig m curve range with
    | error e =>
      rw [ha] at h
      exact absurd h (by simp)
    | ok pts =>
      rw [ha] at h
      simp only [Except.ok.injEq, Prod.mk.injEq] at h
      obtain ⟨hr, hc, _⟩ := h
      rw [← hc, cacheGet_insert]
      dsimp only
      rw [hr]

/-- A line-on-flat-surface curve whose approximation is empty; used by the C3
witness. -/
def witCurveLine : CurveQ :=
  { path := .line ⟨1, 1⟩ ⟨1, 0⟩,
    surface := { u := .line ⟨0, 0, 0⟩ ⟨1, 0, 0⟩, v := ⟨0, 0, 1⟩ },
    globalForm := 3 }

/-- C3 witness: a first call through an empty cache (which runs the sampler),
then the theorem's second call (same tolerance) answered from the cache. -/
theorem approx_with_cache_second_call_witness :
    approx_with_cache trigEx 2 witCurveLine ⟨0, 1⟩ []
      = .ok (⟨[]⟩, [((3, ⟨0, 1⟩), ⟨[]⟩)], true) ∧
    approx_with_cache trigEx 2 witCurveLine ⟨0, 1⟩ [((3, ⟨0, 1⟩), ⟨[]⟩)]
      = .ok (⟨[]⟩, [((3, ⟨0, 1⟩), ⟨[]⟩)], false) :=
  ⟨rfl,
    approx_with_cache_second_call trigEx 2 witCurveLine ⟨0, 1⟩ [] ⟨[]⟩
      [((3, ⟨0, 1⟩), ⟨[]⟩)] true rfl⟩

/-- C9: the cache key is only `(global-curve handle, range)` and carries no
tolerance: a second call through the same cache with *any* other tolerance
(subdivision count `m2`) returns the point sequence computed for the first
call's tolerance, without running the sampler again. -/
theorem approx_cache_key_ignores_tolerance (trig : Trig) (m1 m2 : Nat)
    (curve : CurveQ) (range : RangeOnPath) (cache : CurveCache)
    (r : CurveApprox) (c1 : CurveCache) (b : Bool)
    (h : approx_with_cache trig m1 curve range cache = .ok (r, c1, b)) :
    approx_with_cache trig m2 curve range c1 = .ok (r, c1, false) := by
  unfold approx_with_cache at h ⊢
  cases hg : cacheGet cache (curve.globalForm, range) with
  | some g =>
    rw [hg] at h
    simp only [Except.ok.injEq, Prod.mk.injEq] at h
    obtain ⟨hr, hc, _⟩ := h
    rw [← hc, hg]
    dsimp only
    rw [hr]
  | none =>
    rw [hg] at h
    cases ha : approx_global_curve trig m1 curve range with
    | error e =>
      rw [ha] at h
      exact absurd h (by simp)
    | ok pts =>
      rw [ha] at h
      simp only [Except.ok.injEq, Prod.mk.injEq] at h
      obtain ⟨hr, hc, _⟩ := h
      rw [← hc, cacheGet_insert]
      dsimp only
      rw [hr]

/-- The line-on-flat-surface curve the C9 witness runs on (its approximation
is the empty sequence for every tolerance, computed afresh only on the first
call). -/
def witCurveC9 : CurveQ :=
  { path := .line ⟨0, 0⟩ ⟨1, 0⟩,
    surface := { u := .line ⟨0, 0, 0⟩ ⟨1, 0, 0⟩, v := ⟨0, 0, 1⟩ },
    globalForm := 4 }

/-- C9 witness: a first call with subdivision count 3, then the theorem's
second call with the different count 7, answered from the cache without
resampling. -/
theorem approx_cache_key_ignores_tolerance_witness :
    approx_with_cache trigEx 3 witCurveC9 ⟨0, 2⟩ []
      = .ok (⟨[]⟩, [((4, ⟨0, 2⟩), ⟨[]⟩)], true) ∧
    approx_with_cache trigEx 7 witCurveC9 ⟨0, 2⟩ [((4, ⟨0, 2⟩), ⟨[]⟩)]
      = .ok (⟨[]⟩, [((4, ⟨0, 2⟩), ⟨[]⟩)], false) :=
  ⟨rfl,
    approx_cache_key_ignores_tolerance trigEx 3 7 witCurveC9 ⟨0, 2⟩ [] ⟨[]⟩
      [((4, ⟨0, 2⟩), ⟨[]⟩)] true rfl⟩

/-! ### The unsupported circle-on-curved-surface case (C7) -/

/-- C7: approximating a curve whose local path is a circle while the surface's
global `u` path is also a circle raises the hard `not yet supported` fault; it
never returns a point sequence for this combination. -/
theorem approx_circle_on_curved_surface_unsupported (trig : Trig) (m : Nat)
    (curve : CurveQ) (range : RangeOnPath)
    (hp : ∃ c a b, curve.path = .circle c a b)
    (hu : ∃ c a b, curve.surface.u = .circle c a b) :
    approx_global_curve trig m curve range = .error .notYetSupported := by
  rcases hp with ⟨c1, a1, b1, hp⟩
  rcases hu with ⟨c2, a2, b2, hu⟩
  unfold approx_global_curve
  rw [hp, hu]

/-- The circle-on-circle curve of the C7 witness. -/
def witCurveC7 : CurveQ :=
  { path := .circle ⟨0, 0⟩ ⟨1, 0⟩ ⟨0, 1⟩,
    surface := { u := .circle ⟨0, 0, 0⟩ ⟨1, 0, 0⟩ ⟨0, 1, 0⟩, v := ⟨0, 0, 1⟩ },
    globalForm := 5 }

/-- C7 witness: the unsupported-case theorem applied to a concrete circle on a
circularly swept surface. -/
theorem approx_circle_on_curved_surface_unsupported_witness :
    (∃ c a b, witCurveC7.path = .circle c a b) ∧
    (∃ c a b, witCurveC7.surface.u = .circle c a b) ∧
    approx_global_curve trigEx 6 witCurveC7 ⟨0, 2⟩ = .error .notYetSupported :=
  ⟨⟨⟨0, 0⟩, ⟨1, 0⟩, ⟨0, 1⟩, rfl⟩, ⟨⟨0, 0, 0⟩, ⟨1, 0, 0⟩, ⟨0, 1, 0⟩, rfl⟩,
    approx_circle_on_curved_surface_unsupported trigEx 6 witCurveC7 ⟨0, 2⟩
      ⟨⟨0, 0⟩, ⟨1, 0⟩, ⟨0, 1⟩, rfl⟩ ⟨⟨0, 0, 0⟩, ⟨1, 0, 0⟩, ⟨0, 1, 0⟩, rfl⟩⟩

/-! ## The edge sweep, `fj-kernel/src/algorithms/sweep/edge.rs`

`sweep_with_cache` for `(Handle<HalfEdge>, &Handle<Vertex>, &Surface, Color)`
is translated from the source; the vertex sweep, the curve sweep, the partial
objects and the builders live in files that are not among the sources and are
modelled from the spec. -/

/-- A full half-edge handle of the sweep's flavour: handle identity, curve
handle, parameter boundary, start-vertex handle, global-form handle. -/
structure KHalfEdge where
  id : Nat
  curve : Nat
  boundary : ℚ × ℚ
  startVertex : Nat
  globalForm : Nat
deriving DecidableEq

/-- The per-sweep cache (`SweepCache`; its file is not among the sources).
Modelled from the spec: "repeated sweeps of the same vertex (identified by
handle) within one sweep operation must return the same resulting edge
(enforced via the cache)"; the curve-to-surface sweep is cached alike. -/
structure SweepCache where
  vertexEdges : List (Nat × (Nat × Nat))
  curveSurfaces : List (Nat × Nat)
deriving DecidableEq

/-- The mutable state threaded through a sweep: the store's fresh-handle
counter plus the sweep cache. -/
structure SweepState where
  next : Nat
  cache : SweepCache
deriving DecidableEq

/-- Association-list lookup by handle identity. -/
def assocFind {α : Type} : List (Nat × α) → Nat → Option α
  | [], _ => none
  | kv :: rest, k => if kv.1 = k then some kv.2 else assocFind rest k

/-- Modelled from the spec: sweeping a vertex yields the edge from the original
position to the displaced position, plus the pair of its two vertices (the
original and the freshly created displaced one); cached per vertex handle so
that repeated sweeps of the same vertex return the identical edge.  On a miss,
fresh handles are allocated for the new global edge and the displaced
vertex. -/
def sweepVertex (v : Nat) (st : SweepState) : (Nat × (Nat × Nat)) × SweepState :=
  match assocFind st.cache.vertexEdges v with
  | some r => ((r.1, (v, r.2)), st)
  | none =>
    ((st.next, (v, st.next + 1)),
     { next := st.next + 2,
       cache := { st.cache with
         vertexEdges := (v, (st.next, st.next + 1)) :: st.cache.vertexEdges } })

/-- Modelled from the spec: "The face's surface is obtained by sweeping the
edge's curve" (the `(edge.curve(), surface)` sweep of the source); cached per
curve handle, with a fresh handle for the new surface on a miss. -/
def sweepCurveSurface (c : Nat) (surface : Nat) (st : SweepState) :
    Nat × SweepState :=
  match assocFind st.cache.curveSurfaces c with
  | some surf => (surf, st)
  | none =>
    (st.next,
     { next := st.next + 1,
       cache := { st.cache with
         curveSurfaces := (c, st.next) :: st.cache.curveSurfaces } })

/-- A partial half-edge under construction (`Partial<HalfEdge>`): modelled from
the spec's builder layer.  `Partial::new` gives every field a fresh default;
the default global form is itself a freshly allocated partial global edge,
whose handle we record at creation time. -/
structure ProtoEdge where
  boundary : Option ℚ × Option ℚ
  startVertex : Option Nat
  curvePath : Option SurfacePath
  globalForm : Nat
deriving DecidableEq

/-- The face produced by sweeping an edge: its swept surface, its exterior
cycle `[bottom, up, top, down]`, and its color. -/
structure KFace where
  surface : Nat
  exterior : List ProtoEdge
  color : Nat
deriving DecidableEq

/-- `HalfEdgeBuilder::update_as_line_segment` (builder not among the sources):
modelled from the spec, "all four are inserted as straight line segments in the
new face's 2-D parameter space": the line through the two surface points. -/
def lineThrough (p q : Vec2) : SurfacePath :=
  .line p ⟨q.u - p.u, q.v - p.v⟩

/-- What sweeping one half-edge returns: the inserted face's handle and value,
the built top half-edge (returned so the caller can chain further sweeps), and
the final state. -/
structure SweptEdgeResult where
  faceId : Nat
  face : KFace
  topEdgeId : Nat
  topEdge : ProtoEdge
  state : SweepState
deriving DecidableEq

/-- `sweep_with_cache` (source lines 21-139): sweep the edge's curve into the
face's surface; create the four partial half-edges `[bottom, up, top, down]`,
each with a fresh default global form; sweep the edge's two endpoint vertices
`b = next_vertex` and `a = edge.start_vertex()` into the right and left side
edges; fill in the boundaries `[(a,b), (0,1), (b,a), (1,0)]`, the start
vertices `[a, b, c, d]` and the line-segment curves through the circular
windows of the surface points; finally re-point the global forms of
`[bottom, up, down]` to `[edge.global_form(), edge_right, edge_left]` — the
top edge keeps its fresh default global form. -/
def sweep_with_cache (edge : KHalfEdge) (nextVertex surface color : Nat)
    (st : SweepState) : SweptEdgeResult :=
  let surf := sweepCurveSurface edge.curve surface st
  let g0 := surf.2.next
  let st2 : SweepState := { surf.2 with next := surf.2.next + 4 }
  let right := sweepVertex nextVertex st2
  let left := sweepVertex edge.startVertex right.2
  let c := right.1.2.2
  let d := left.1.2.2
  let aT := edge.boundary.1
  let bT := edge.boundary.2
  let p0 : Vec2 := ⟨aT, 0⟩
  let p1 : Vec2 := ⟨bT, 0⟩
  let p2 : Vec2 := ⟨bT, 1⟩
  let p3 : Vec2 := ⟨aT, 1⟩
  let bottom : ProtoEdge :=
    { boundary := (some aT, some bT), startVertex := some edge.startVertex,
      curvePath := some (lineThrough p0 p1), globalForm := edge.globalForm }
  let up : ProtoEdge :=
    { boundary := (some 0, some 1), startVertex := some nextVertex,
      curvePath := some (lineThrough p1 p2), globalForm := right.1.1 }
  let top : ProtoEdge :=
    { boundary := (some bT, some aT), startVertex := some c,
      curvePath := some (lineThrough p2 p3), globalForm := g0 + 2 }
  let down : ProtoEdge :=
    { boundary := (some 1, some 0), startVertex := some d,
      curvePath := some (lineThrough p3 p0), globalForm := left.1.1 }
  { faceId := left.2.next,
    face := { surface := surf.1, exterior := [bottom, up, top, down],
              color := color },
    topEdgeId := left.2.next + 1,
    topEdge := top,
    state := { left.2 with next := left.2.next + 2 } }

theorem sweepCurveSurface_next_mono (c : Nat) (surface : Nat) (st : SweepState) :
    st.next ≤ (sweepCurveSurface c surface st).2.next := by
  unfold sweepCurveSurface
  cases assocFind st.cache.curveSurfaces c with
  | none => simp
  | some surf => simp

/-- C4 (amended): after sweeping a half-edge into a face, the bottom half-edge
reuses the original edge's global form; the two side half-edges (up and down)
are re-pointed to the global forms of the edges obtained by sweeping the
original edge's two endpoint vertices (the next vertex and the start vertex,
respectively); and the top half-edge keeps a freshly created global form of
its own, which is distinct from the original edge's global form. -/
theorem sweep_edge_global_forms (edge : KHalfEdge)
    (nextVertex surface color : Nat) (st : SweepState)
    (hfresh : edge.globalForm < st.next) :
    ((sweep_with_cache edge nextVertex surface color st).face.exterior.map
        ProtoEdge.globalForm)
      = [edge.globalForm,
         (sweepVertex nextVertex
           { (sweepCurveSurface edge.curve surface st).2 with
             next := (sweepCurveSurface edge.curve surface st).2.next + 4 }).1.1,
         (sweepCurveSurface edge.curve surface st).2.next + 2,
         (sweepVertex edge.startVertex
           (sweepVertex nextVertex
             { (sweepCurveSurface edge.curve surface st).2 with
               next := (sweepCurveSurface edge.curve surface st).2.next + 4 }).2).1.1]
    ∧ (sweepCurveSurface edge.curve surface st).2.next + 2 ≠ edge.globalForm := by
  constructor
  · rfl
  · have hmono := sweepCurveSurface_next_mono edge.curve surface st
    omega

/-- The concrete half-edge the C4 counterexample and witness sweep: global
form 7, start vertex 3, curve 9. -/
def exEdgeC4 : KHalfEdge :=
  { id := 1, curve := 9, boundary := (0, 1), startVertex := 3, globalForm := 7 }

/-- A sweep state with fresh counter 100 and empty caches. -/
def exStC4 : SweepState := { next := 100, cache := { vertexEdges := [], curveSurfaces := [] } }

/-- C4 counterexample: sweeping the concrete edge (global form 7) produces
exterior global forms `[7, 105, 103, 107]`: the top half-edge's global form is
the fresh handle 103, not the original edge's global form 7, contradicting the
claim that the bottom *and top* half-edges reuse the original edge's global
form. -/
theorem sweep_edge_top_global_form_cex :
    ((sweep_with_cache exEdgeC4 5 3 0 exStC4).face.exterior.map
        ProtoEdge.globalForm) = [7, 105, 103, 107] ∧
    (sweep_with_cache exEdgeC4 5 3 0 exStC4).face.exterior.map
        ProtoEdge.globalForm ≠ [7, 105, 7, 107] ∧
    exEdgeC4.globalForm = 7 ∧ (103 : Nat) ≠ 7 := by
  refine ⟨rfl, ?_, rfl, by decide⟩
  intro hc
  rw [show ((sweep_with_cache exEdgeC4 5 3 0 exStC4).face.exterior.map
      ProtoEdge.globalForm) = [7, 105, 103, 107] from rfl] at hc
  simp at hc

/-- C4 witness: the global-forms theorem applied to the concrete edge and
state. -/
theorem sweep_edge_global_forms_witness :
    exEdgeC4.globalForm < exStC4.next ∧
    (((sweep_with_cache exEdgeC4 5 3 0 exStC4).face.exterior.map
        ProtoEdge.globalForm)
      = [exEdgeC4.globalForm,
         (sweepVertex 5
           { (sweepCurveSurface exEdgeC4.curve 3 exStC4).2 with
             next := (sweepCurveSurface exEdgeC4.curve 3 exStC4).2.next + 4 }).1.1,
         (sweepCurveSurface exEdgeC4.curve 3 exStC4).2.next + 2,
         (sweepVertex exEdgeC4.startVertex
           (sweepVertex 5
             { (sweepCurveSurface exEdgeC4.curve 3 exStC4).2 with
               next := (sweepCurveSurface exEdgeC4.curve 3 exStC4).2.next + 4 }).2).1.1]
     ∧ (sweepCurveSurface exEdgeC4.curve 3 exStC4).2.next + 2 ≠ exEdgeC4.globalForm) :=
  ⟨by decide, sweep_edge_global_forms exEdgeC4 5 3 0 exStC4 (by decide)⟩

end Fj
